import Mathlib

/-!
Verification of the ACO pathfinding core (`src/aco.rs`, `src/roulette.rs`,
`src/main.rs`) against its natural-language specification.

The Rust code is shallowly embedded: `f32` values are modelled as exact
rationals (`ℚ`), `usize` as `ℕ`, `i32` grid arithmetic as `ℤ`, fallible
constructors as `Option`, and the thread-local random draw is passed in
explicitly as the rational parameter `r` (the value the source names
`random`).  The in-place mutation performed by `RouletteSubjects::roulette`
is modelled by returning the new stored vector alongside the result.
-/

/-- Grid vertex `(x, y)`, the source's `VerticeLoc = (usize, usize)`. -/
abbrev VerticeLoc : Type := ℕ × ℕ

/-! ## Roulette core (src/roulette.rs and aco.rs VerticeProbabilities)

Both roulette implementations share the same three phases:
sort ascending by weight (Rust's stable `sort_by` on `partial_cmp` of the
weight, modelled by Mathlib's stable `insertionSort`), replace each weight
by the running cumulative sum, then scan for the first pair whose
cumulative interval contains the draw. -/

/-- The source's stable ascending sort by the weight component
(`sort_by(|a, b| a.0.partial_cmp(&b.0).unwrap())`). -/
def sortPairs {α : Type} (l : List (ℚ × α)) : List (ℚ × α) :=
  List.insertionSort (fun a b => a.1 ≤ b.1) l

/-- The in-place prefix-sum pass (`probability_sum += pair.0; pair.0 = probability_sum`),
with `acc` the running `probability_sum`. -/
def cumsum {α : Type} (acc : ℚ) : List (ℚ × α) → List (ℚ × α)
  | [] => []
  | p :: rest => (acc + p.1, p.2) :: cumsum (acc + p.1) rest

/-- The final selection scan: return the first pair whose cumulative value
interval `[previous, pair.0)` contains the draw `r`
(`if random >= previous && random < pair.0 { return Some(pair.1) }`). -/
def pick {α : Type} (r : ℚ) : ℚ → List (ℚ × α) → Option α
  | _, [] => none
  | prev, p :: rest => if prev ≤ r ∧ r < p.1 then some p.2 else pick r p.1 rest

/-- Result of a roulette draw at raw draw value `r` (the source's `random`,
which is `rng.gen::<f32>() * probability_sum`). -/
def rouletteAt {α : Type} (l : List (ℚ × α)) (r : ℚ) : Option α :=
  pick r 0 (cumsum 0 (sortPairs l))

/-- Sum of the stored weights of a `(weight, item)` list. -/
def totalWeight {α : Type} (l : List (ℚ × α)) : ℚ :=
  (l.map Prod.fst).sum

/-- The source's `RouletteSubjects<T>(pub Vec<(f32, T)>)`. -/
abbrev RouletteSubjects (α : Type) : Type := List (ℚ × α)

/-- `RouletteSubjects::roulette` takes `&mut self`: it sorts the stored
vector and overwrites every weight with the cumulative prefix sum before
scanning.  The returned pair is (selection, stored vector after the call). -/
def RouletteSubjects.roulette {α : Type} (self : RouletteSubjects α) (r : ℚ) :
    Option α × RouletteSubjects α :=
  let sorted := sortPairs self
  let summed := cumsum 0 sorted
  (pick r 0 summed, summed)

/-- The source's `VerticeProbabilities { prob_vertices: Vec<(f32, VerticeLoc)> }`. -/
structure VerticeProbabilities where
  prob_vertices : List (ℚ × VerticeLoc)

/-- `VerticeProbabilities::roulette` takes `&self` and works on a clone
(`vec.prob_vertices.clone_from(&self.prob_vertices)`), so the stored pairs
are untouched; the second component is the (unchanged) stored vector. -/
def VerticeProbabilities.roulette (self : VerticeProbabilities) (r : ℚ) :
    Option VerticeLoc × List (ℚ × VerticeLoc) :=
  (pick r 0 (cumsum 0 (sortPairs self.prob_vertices)), self.prob_vertices)

/-! ## The grid map (src/aco.rs) -/

/-- The source's `ACOGraph`: an `N × N` dense matrix (`nalgebra` dynamic
matrix, modelled as a total function on index pairs) plus the grid bounds. -/
structure ACOGraph where
  mat : ℕ → ℕ → ℚ
  width : ℕ
  height : ℕ

/-- `nalgebra`'s `from_diagonal_element(n, n, d)`: `d` on the diagonal,
zeros elsewhere. -/
def fromDiagonalElement (d : ℚ) : ℕ → ℕ → ℚ :=
  fun i j => if i = j then d else 0

/-- `ACOGraph::new`: a `width*height` square matrix with zero diagonal
(hence all zero). -/
def ACOGraph.new (width height : ℕ) : ACOGraph :=
  { mat := fromDiagonalElement 0, width := width, height := height }

/-- `ACOGraph::idx`: linear index of a vertex. -/
def ACOGraph.idx (self : ACOGraph) (vertice : VerticeLoc) : ℕ :=
  vertice.1 + vertice.2 * self.width

/-- `ACOGraph::get_edg_value`: reads `mat[(col, row)]` with
`row = idx(v0)`, `col = idx(v1)`. -/
def ACOGraph.get_edg_value (self : ACOGraph) (v0 v1 : VerticeLoc) : ℚ :=
  self.mat (self.idx v1) (self.idx v0)

/-- `Matrix::fill`: overwrite every entry. -/
def ACOGraph.fill (self : ACOGraph) (value : ℚ) : ACOGraph :=
  { self with mat := fun _ _ => value }

/-- The source's `ACOMap` (aco.rs variant: pheromone graph and
evaporation rate). -/
structure ACOMap where
  pheromone_graph : ACOGraph
  evaporation_rate : ℚ

/-- `ACOMap::new`: rejects `width == 0`, `height == 0` and
`evaporation_rate > 1.0`, otherwise builds the pheromone graph and then
fills the whole matrix with `1.0` (`aco_map.pheromone_graph.mat.fill(1.0)`). -/
def ACOMap.new (width height : ℕ) (evaporation_rate : ℚ) : Option ACOMap :=
  if width = 0 ∨ height = 0 ∨ evaporation_rate > 1 then none
  else some
    { pheromone_graph := (ACOGraph.new width height).fill 1
      evaporation_rate := evaporation_rate }

/-- The source's `SQRT_OF_2: f32 = 1.41421356237`. -/
def SQRT_OF_2 : ℚ := 1.41421356237

/-- `ACOMap::cost`: `SQRT_OF_2` when both coordinates differ, else `1.0`. -/
def ACOMap.cost (v0 v1 : VerticeLoc) : ℚ :=
  if v0.1 ≠ v1.1 ∧ v0.2 ≠ v1.2 then SQRT_OF_2 else 1

/-- One candidate slot of the neighbourhood double loop: offset `(i, j)`
applied to `vertice`, skipped (`continue`) when the `y` coordinate leaves
the grid or the offset is `(0, 0)`.  The `x` test lives in `neighRow`. -/
def neighCand (height : ℕ) (vertice : VerticeLoc) (i j : ℤ) : Option VerticeLoc :=
  let nx : ℤ := (vertice.1 : ℤ) + i
  let ny : ℤ := (vertice.2 : ℤ) + j
  if ny < 0 ∨ (height : ℤ) ≤ ny ∨ (i = 0 ∧ j = 0) then none
  else some (nx.toNat, ny.toNat)

/-- One iteration of the outer loop (`for i in &[-1, 0, 1]`): empty when
`new_x` leaves the grid, else the inner loop over `j ∈ [-1, 0, 1]`. -/
def neighRow (width height : ℕ) (vertice : VerticeLoc) (i : ℤ) : List VerticeLoc :=
  let nx : ℤ := (vertice.1 : ℤ) + i
  if nx < 0 ∨ (width : ℤ) ≤ nx then []
  else (neighCand height vertice i (-1)).toList ++ (neighCand height vertice i 0).toList
       ++ (neighCand height vertice i 1).toList

/-- The body of `ACOMap::get_neighbours`, parameterized by the grid bounds. -/
def neighboursList (width height : ℕ) (vertice : VerticeLoc) : List VerticeLoc :=
  neighRow width height vertice (-1) ++ neighRow width height vertice 0
    ++ neighRow width height vertice 1

/-- `ACOMap::get_neighbours`. -/
def ACOMap.get_neighbours (self : ACOMap) (vertice : VerticeLoc) : List VerticeLoc :=
  neighboursList self.pheromone_graph.width self.pheromone_graph.height vertice

/-- `ACOMap::get_neighbours_with_exclusions`: the same double loop with the
extra `!exclusions.contains(&neighbour)` test before pushing. -/
def ACOMap.get_neighbours_with_exclusions (self : ACOMap) (vertice : VerticeLoc)
    (exclusions : List VerticeLoc) : List VerticeLoc :=
  (neighboursList self.pheromone_graph.width self.pheromone_graph.height vertice).filter
    (fun neighbour => ¬ neighbour ∈ exclusions)

/-- `ACOMap::get_likelyhood_factor`: pheromone weight divided by cost. -/
def ACOMap.get_likelyhood_factor (self : ACOMap) (v0 v1 : VerticeLoc) : ℚ :=
  self.pheromone_graph.get_edg_value v0 v1 / ACOMap.cost v0 v1

/-- `ACOMap::get_next_vertice_with_exclusions` at draw value `r`: build the
`(likelyhood, neighbour)` pairs while accumulating `likelyhood_sum`, return
`None` on an empty candidate list, normalize each weight by the sum, and
run the `VerticeProbabilities` roulette. -/
def ACOMap.get_next_vertice_with_exclusions (self : ACOMap) (current : VerticeLoc)
    (exclusions : List VerticeLoc) (r : ℚ) : Option VerticeLoc :=
  let pairs := (self.get_neighbours_with_exclusions current exclusions).map
    (fun neighbour => (self.get_likelyhood_factor current neighbour, neighbour))
  let likelyhood_sum := totalWeight pairs
  if pairs.length = 0 then none
  else (VerticeProbabilities.mk (pairs.map (fun pair => (pair.1 / likelyhood_sum, pair.2)))).roulette r |>.1

/-- `ACOMap::get_vertice_coordinates`: the vertex-to-screen layout map.
`self.pheromone_graph.height - 1` is `usize` subtraction (truncated);
division by zero (height 1) is `0` in the `ℚ` model. -/
def ACOMap.get_vertice_coordinates (self : ACOMap) (window_size : ℕ × ℕ)
    (vertice : VerticeLoc) : ℚ × ℚ :=
  let x_spacing : ℚ := (window_size.1 : ℚ) / (self.pheromone_graph.width : ℚ)
  let y_spacing : ℚ := ((window_size.2 : ℚ) - x_spacing) / ((self.pheromone_graph.height - 1 : ℕ) : ℚ)
  let x_offs : ℚ := x_spacing / 2
  let y_offs : ℚ := x_offs
  (x_offs + (vertice.1 : ℚ) * x_spacing, y_offs + (vertice.2 : ℚ) * y_spacing)

/-! ## Walk controller (modelled from the spec)

The repository's walk controller is absent from the source (`find_path` is
an empty stub); only its collaborators exist.  The definitions below are
modelled from the spec. -/

/-- Modelled from the spec: the 150-entry capacity of the Walk Controller's
bounded FIFO exclusion set (spec section 3); the controller itself is missing
from the source. -/
def EXCLUSION_CAPACITY : ℕ := 150

/-- Modelled from the spec: insertion into the bounded FIFO exclusion set.
The list holds the oldest entry at the head; at capacity the oldest entry
is evicted before the new one is appended (spec sections 3 and 4.6). -/
def insertExclusion (exclusions : List VerticeLoc) (v : VerticeLoc) : List VerticeLoc :=
  if exclusions.length < EXCLUSION_CAPACITY then exclusions ++ [v]
  else exclusions.tail ++ [v]

/-- Modelled from the spec: the Walk Controller's state (spec section 3) —
current vertex, visited path (top of the stack at the head), and the
bounded FIFO exclusion set.  Missing from the source. -/
structure WalkState where
  current : VerticeLoc
  path : List VerticeLoc
  exclusions : List VerticeLoc

/-- Modelled from the spec: one step attempt of the Walk Controller (spec
section 4.6), absent from the source.  Candidates exclude `path` and
`exclusions`; on a selection the agent advances, on a dead end the current
vertex goes into the FIFO exclusion set and the walk backtracks one path
entry (an exhausted path is left as-is, the spec leaves that policy open). -/
def walkStep (map : ACOMap) (s : WalkState) (r : ℚ) : WalkState :=
  match map.get_next_vertice_with_exclusions s.current (s.path ++ s.exclusions) r with
  | some v => { current := v, path := s.current :: s.path, exclusions := s.exclusions }
  | none =>
    match s.path with
    | [] => s
    | p :: rest =>
      { current := p, path := rest, exclusions := insertExclusion s.exclusions s.current }

/-! ## Roulette correctness lemmas -/

/-- Partial sum of the first `n` weights of a `(weight, item)` list. -/
def psum {α : Type} : List (ℚ × α) → ℕ → ℚ
  | _, 0 => 0
  | [], _ + 1 => 0
  | p :: rest, n + 1 => p.1 + psum rest n

theorem psum_nonneg {α : Type} (l : List (ℚ × α)) (hw : ∀ p ∈ l, 0 ≤ p.1) (n : ℕ) :
    0 ≤ psum l n := by
  induction l generalizing n with
  | nil => cases n <;> simp [psum]
  | cons p rest ih =>
    cases n with
    | zero => simp [psum]
    | succ m =>
      have h1 : 0 ≤ p.1 := hw p (by simp)
      have h2 : 0 ≤ psum rest m := ih (fun q hq => hw q (by simp [hq])) m
      simpa [psum] using add_nonneg h1 h2

theorem totalWeight_cons {α : Type} (p : ℚ × α) (rest : List (ℚ × α)) :
    totalWeight (p :: rest) = p.1 + totalWeight rest := by
  simp [totalWeight]

theorem psum_le_totalWeight {α : Type} (l : List (ℚ × α)) (hw : ∀ p ∈ l, 0 ≤ p.1) (n : ℕ) :
    psum l n ≤ totalWeight l := by
  induction l generalizing n with
  | nil => cases n <;> simp [psum, totalWeight]
  | cons p rest ih =>
    cases n with
    | zero =>
      have h1 : 0 ≤ p.1 := hw p (by simp)
      have h2 : 0 ≤ totalWeight rest :=
        List.sum_nonneg (by
          intro x hx
          obtain ⟨q, hq, rfl⟩ := List.mem_map.mp hx
          exact hw q (by simp [hq]))
      simp only [psum, totalWeight_cons]
      linarith
    | succ m =>
      have h2 := ih (fun q hq => hw q (by simp [hq])) m
      simp only [psum, totalWeight_cons]
      linarith

theorem psum_succ_getElem {α : Type} (l : List (ℚ × α)) (n : ℕ) (hn : n < l.length) :
    psum l (n + 1) = psum l n + (l[n]).1 := by
  induction l generalizing n with
  | nil => simp at hn
  | cons p rest ih =>
    cases n with
    | zero => simp [psum]
    | succ m =>
      have hm : m < rest.length := by simpa using hn
      have := ih m hm
      simp only [psum, List.getElem_cons_succ, this]
      ring

theorem cumsum_map_snd {α : Type} (acc : ℚ) (l : List (ℚ × α)) :
    (cumsum acc l).map Prod.snd = l.map Prod.snd := by
  induction l generalizing acc with
  | nil => rfl
  | cons p rest ih => simp [cumsum, ih]

theorem pick_mem {α : Type} (r : ℚ) (l : List (ℚ × α)) (t : α) :
    ∀ prev, pick r prev l = some t → t ∈ l.map Prod.snd := by
  induction l with
  | nil => intro prev h; simp [pick] at h
  | cons p rest ih =>
    intro prev h
    rw [pick] at h
    by_cases hc : prev ≤ r ∧ r < p.1
    · rw [if_pos hc] at h
      simp only [Option.some.injEq] at h
      simp [h]
    · rw [if_neg hc] at h
      have := ih p.1 h
      simp [this]

theorem pick_cumsum_isSome {α : Type} (l : List (ℚ × α)) (r : ℚ) :
    ∀ prev, (∀ p ∈ l, 0 ≤ p.1) → prev ≤ r → r < prev + totalWeight l →
      ∃ t, pick r prev (cumsum prev l) = some t := by
  induction l with
  | nil =>
    intro prev _ h1 h2
    simp only [totalWeight, List.map_nil, List.sum_nil, add_zero] at h2
    linarith
  | cons p rest ih =>
    intro prev hw h1 h2
    simp only [cumsum, pick]
    by_cases hc : r < prev + p.1
    · exact ⟨p.2, if_pos ⟨h1, hc⟩⟩
    · rw [if_neg (by tauto)]
      refine ih (prev + p.1) (fun q hq => hw q (by simp [hq])) (by linarith) ?_
      rw [totalWeight_cons] at h2
      linarith

theorem pick_cumsum_eq_some_iff {α : Type} (l : List (ℚ × α)) (r : ℚ) (t : α) :
    ∀ prev, (∀ p ∈ l, 0 ≤ p.1) → (pick r prev (cumsum prev l) = some t ↔
      ∃ n : ℕ, ∃ hn : n < l.length,
        (l[n]).2 = t ∧ prev + psum l n ≤ r ∧ r < prev + psum l (n + 1)) := by
  induction l with
  | nil => intro prev _; simp [cumsum, pick]
  | cons p rest ih =>
    intro prev hw
    have hwr : ∀ q ∈ rest, 0 ≤ q.1 := fun q hq => hw q (by simp [hq])
    simp only [cumsum, pick]
    by_cases hc : prev ≤ r ∧ r < prev + p.1
    · rw [if_pos hc]
      constructor
      · intro h
        simp only [Option.some.injEq] at h
        exact ⟨0, by simp, by simpa using h, by simpa [psum] using hc.1,
          by simpa [psum] using hc.2⟩
      · rintro ⟨n, hn, hItem, h1, h2⟩
        cases n with
        | zero => simpa using hItem
        | succ m =>
          exfalso
          have hps : 0 ≤ psum rest m := psum_nonneg rest hwr m
          simp only [psum] at h1
          have := hc.2
          linarith
    · rw [if_neg hc]
      rw [ih (prev + p.1) hwr]
      constructor
      · rintro ⟨m, hm, hItem, h1, h2⟩
        refine ⟨m + 1, by simpa using Nat.succ_lt_succ hm, by simpa using hItem, ?_, ?_⟩
        · simp only [psum]; linarith
        · simp only [psum]; linarith
      · rintro ⟨n, hn, hItem, h1, h2⟩
        cases n with
        | zero =>
          exfalso
          apply hc
          constructor
          · simpa [psum] using h1
          · simpa [psum] using h2
        | succ m =>
          refine ⟨m, by simpa using hn, by simpa using hItem, ?_, ?_⟩
          · simp only [psum] at h1; linarith
          · simp only [psum] at h2; linarith

theorem sortPairs_perm {α : Type} (l : List (ℚ × α)) : (sortPairs l).Perm l :=
  List.perm_insertionSort _ l

theorem totalWeight_sortPairs {α : Type} (l : List (ℚ × α)) :
    totalWeight (sortPairs l) = totalWeight l :=
  List.Perm.sum_eq (List.Perm.map Prod.fst (sortPairs_perm l))

theorem rouletteAt_mem {α : Type} (l : List (ℚ × α)) (r : ℚ) (t : α)
    (h : rouletteAt l r = some t) : t ∈ l.map Prod.snd := by
  have h1 := pick_mem r (cumsum 0 (sortPairs l)) t 0 h
  rw [cumsum_map_snd] at h1
  exact (List.Perm.mem_iff (List.Perm.map Prod.snd (sortPairs_perm l))).mp h1

/-- C1: for a collection of `(weight, item)` pairs with nonnegative weights,
at least one of them positive, and pairwise-distinct items, the roulette
selection at any draw value `r ∈ [0, totalWeight)` returns exactly one item
(never `none`), and for each pair the set of draw values that select its item
is a half-open interval inside `[0, totalWeight)` whose length is exactly the
pair's weight — so under a uniform draw each item is selected with
probability `weight / sum(weights)`.  The last two conjuncts tie the shared
selection function to both `RouletteSubjects::roulette` and
`VerticeProbabilities::roulette`. -/
theorem roulette_selects_proportionally {α : Type} (l : List (ℚ × α))
    (hw : ∀ p ∈ l, 0 ≤ p.1) (hpos : ∃ p ∈ l, 0 < p.1)
    (hd : l.Pairwise (fun p q => p.2 ≠ q.2)) :
    (∀ r : ℚ, 0 ≤ r → r < totalWeight l → ∃ t, rouletteAt l r = some t)
    ∧ (∀ p ∈ l, ∃ a b : ℚ, 0 ≤ a ∧ a ≤ b ∧ b ≤ totalWeight l ∧ b - a = p.1 ∧
        (∀ r : ℚ, (rouletteAt l r = some p.2 ↔ a ≤ r ∧ r < b)))
    ∧ (∀ r : ℚ, (RouletteSubjects.roulette l r).1 = rouletteAt l r)
    ∧ (∀ (lv : List (ℚ × VerticeLoc)) (r2 : ℚ),
        ((VerticeProbabilities.mk lv).roulette r2).1 = rouletteAt lv r2) := by
  have hperm := sortPairs_perm l
  have hws : ∀ p ∈ sortPairs l, 0 ≤ p.1 := fun p hp => hw p (hperm.mem_iff.mp hp)
  refine ⟨?_, ?_, fun r => rfl, fun lv r2 => rfl⟩
  · intro r h0 hr
    have htot : r < 0 + totalWeight (sortPairs l) := by
      rw [totalWeight_sortPairs]; linarith
    exact pick_cumsum_isSome (sortPairs l) r 0 hws h0 htot
  · intro p hp
    obtain ⟨n, hn, hgn⟩ := List.getElem_of_mem (hperm.mem_iff.mpr hp)
    have hsymm : Symmetric (fun p q : ℚ × α => p.2 ≠ q.2) := fun _ _ h => Ne.symm h
    have hds : (sortPairs l).Pairwise (fun p q => p.2 ≠ q.2) :=
      (hperm.pairwise_iff @hsymm).mpr hd
    refine ⟨psum (sortPairs l) n, psum (sortPairs l) (n + 1), psum_nonneg _ hws n,
      ?_, ?_, ?_, ?_⟩
    · rw [psum_succ_getElem _ n hn, hgn]
      have := hw p hp
      linarith
    · rw [← totalWeight_sortPairs]
      exact psum_le_totalWeight _ hws (n + 1)
    · rw [psum_succ_getElem _ n hn, hgn]
      ring
    · intro r
      have hiff := pick_cumsum_eq_some_iff (sortPairs l) r p.2 0 hws
      constructor
      · intro h
        obtain ⟨m, hm, hItem, h1, h2⟩ := hiff.mp h
        have hmn : m = n := by
          by_contra hne
          have hsn : ((sortPairs l)[n]).2 = p.2 := by rw [hgn]
          rcases Nat.lt_or_ge m n with hlt | hge
          · exact List.pairwise_iff_getElem.mp hds m n hm hn hlt (hItem.trans hsn.symm)
          · have hlt2 : n < m := lt_of_le_of_ne hge (fun h2 => hne h2.symm)
            exact List.pairwise_iff_getElem.mp hds n m hn hm hlt2 (hsn.trans hItem.symm)
        subst hmn
        constructor
        · linarith
        · linarith
      · rintro ⟨h1, h2⟩
        apply hiff.mpr
        refine ⟨n, hn, by rw [hgn], by linarith, by linarith⟩

/-- Witness for C1: the two-pair collection `[(1/2, item 0), (1/4, item 1)]`
satisfies all hypotheses, and the draw `1/10` selects an item. -/
theorem roulette_selects_proportionally_witness :
    ∃ t, rouletteAt [((1 : ℚ)/2, (0 : ℕ)), ((1 : ℚ)/4, 1)] (1/10) = some t := by
  have h := roulette_selects_proportionally [((1 : ℚ)/2, (0 : ℕ)), ((1 : ℚ)/4, 1)]
    (by norm_num [List.forall_mem_cons])
    ⟨(1/2, 0), by simp, by norm_num⟩
    (by norm_num [List.pairwise_cons])
  exact h.1 (1/10) (by norm_num) (by norm_num [totalWeight])

/-- C10: `RouletteSubjects::roulette` takes `&mut self` and, as a side
effect, replaces the stored weights with the sorted cumulative prefix sums,
while `VerticeProbabilities::roulette` takes `&self`, works on a clone, and
leaves the stored pairs unchanged.  The third conjunct shows the mutation is
observable on a concrete instance, and the fourth that a second call on the
mutated instance no longer draws from the original weights: at draw `4/5`
the original weights give no selection but the mutated instance selects. -/
theorem roulette_mutates_subjects :
    (∀ (α : Type) (l : List (ℚ × α)) (r : ℚ),
      (RouletteSubjects.roulette l r).2 = cumsum 0 (sortPairs l))
    ∧ (∀ (vp : VerticeProbabilities) (r : ℚ), (vp.roulette r).2 = vp.prob_vertices)
    ∧ (RouletteSubjects.roulette [((1 : ℚ)/2, (0 : ℕ)), ((1 : ℚ)/4, 1)] 0).2
        ≠ [((1 : ℚ)/2, (0 : ℕ)), ((1 : ℚ)/4, 1)]
    ∧ (RouletteSubjects.roulette
        (RouletteSubjects.roulette [((1 : ℚ)/2, (0 : ℕ)), ((1 : ℚ)/4, 1)] 0).2 (4/5)).1
        ≠ (RouletteSubjects.roulette [((1 : ℚ)/2, (0 : ℕ)), ((1 : ℚ)/4, 1)] (4/5)).1 := by
  refine ⟨fun α l r => rfl, fun vp r => rfl, ?_, ?_⟩
  · norm_num [RouletteSubjects.roulette, sortPairs, List.insertionSort,
      List.orderedInsert, cumsum]
  · norm_num [RouletteSubjects.roulette, sortPairs, List.insertionSort,
      List.orderedInsert, cumsum, pick]
    simp

/-- C2: map construction fails (returns `None`) exactly when `width == 0`,
`height == 0`, or `evaporation_rate > 1.0`, and returns a map on every other
input. -/
theorem aco_map_new_none_iff (width height : ℕ) (evaporation_rate : ℚ) :
    ACOMap.new width height evaporation_rate = none ↔
      (width = 0 ∨ height = 0 ∨ evaporation_rate > 1) := by
  rw [ACOMap.new]
  by_cases hc : width = 0 ∨ height = 0 ∨ evaporation_rate > 1
  · simp [if_pos hc, hc]
  · simp [if_neg hc, hc]

/-- C8 fails on the source: `ACOMap::new` runs
`aco_map.pheromone_graph.mat.fill(1.0)`, which overwrites the whole matrix —
diagonal included — with `1.0`.  On the successfully constructed 2×2 map the
diagonal entry for vertex `(0,0)` is `1.0`, not `0.0`. -/
theorem pheromone_diagonal_not_zero :
    (ACOMap.new 2 2 (1/2)).map
        (fun m => m.pheromone_graph.get_edg_value (0, 0) (0, 0)) = some 1
      ∧ (1 : ℚ) ≠ 0 := by
  constructor
  · rw [ACOMap.new, if_neg (by norm_num)]
    rfl
  · norm_num

/-- C8 amended: immediately after `ACOMap::new` succeeds, every entry of the
pheromone matrix — diagonal and off-diagonal alike — equals the uniform
constant `1.0`. -/
theorem pheromone_init_uniform_one (width height : ℕ) (evaporation_rate : ℚ)
    (m : ACOMap) (h : ACOMap.new width height evaporation_rate = some m) :
    ∀ i j : ℕ, m.pheromone_graph.mat i j = 1 := by
  rw [ACOMap.new] at h
  by_cases hc : width = 0 ∨ height = 0 ∨ evaporation_rate > 1
  · rw [if_pos hc] at h
    exact absurd h (by simp)
  · rw [if_neg hc] at h
    simp only [Option.some.injEq] at h
    subst h
    intro i j
    rfl

/-! ## Neighbourhood lemmas -/

theorem mem_neighCand_toList (height x y : ℕ) (i j : ℤ) (p : ℕ × ℕ) :
    p ∈ (neighCand height (x, y) i j).toList ↔
      (¬((y:ℤ) + j < 0 ∨ (height:ℤ) ≤ (y:ℤ) + j ∨ (i = 0 ∧ j = 0)) ∧
        p = (((x:ℤ) + i).toNat, ((y:ℤ) + j).toNat)) := by
  by_cases hc : (y:ℤ) + j < 0 ∨ (height:ℤ) ≤ (y:ℤ) + j ∨ (i = 0 ∧ j = 0)
  · simp [neighCand, if_pos hc, hc]
  · simp [neighCand, if_neg hc, hc, eq_comm]

theorem mem_neighRow_iff (width height x y : ℕ) (i : ℤ) (p : ℕ × ℕ) :
    p ∈ neighRow width height (x, y) i ↔
      (¬((x:ℤ) + i < 0 ∨ (width:ℤ) ≤ (x:ℤ) + i) ∧
        (p ∈ (neighCand height (x, y) i (-1)).toList ∨
         p ∈ (neighCand height (x, y) i 0).toList ∨
         p ∈ (neighCand height (x, y) i 1).toList)) := by
  by_cases hg : (x:ℤ) + i < 0 ∨ (width:ℤ) ≤ (x:ℤ) + i
  · simp [neighRow, if_pos hg, hg]
  · simp [neighRow, if_neg hg, hg, List.mem_append, or_assoc]

theorem mem_neighboursList (width height x y : ℕ) (p : ℕ × ℕ) :
    p ∈ neighboursList width height (x, y) ↔
      (p ∈ neighRow width height (x, y) (-1) ∨ p ∈ neighRow width height (x, y) 0 ∨
        p ∈ neighRow width height (x, y) 1) := by
  simp [neighboursList, List.mem_append, or_assoc]

/-- Membership characterization of the neighbourhood function: exactly the
in-grid cells at Chebyshev distance 1 from the queried vertex. -/
theorem mem_neighboursList_iff (width height x y : ℕ) (p : ℕ × ℕ) :
    p ∈ neighboursList width height (x, y) ↔
      (p.1 < width ∧ p.2 < height ∧ max (Nat.dist p.1 x) (Nat.dist p.2 y) = 1) := by
  obtain ⟨p1, p2⟩ := p
  rw [mem_neighboursList]
  constructor
  · intro hp
    rcases hp with hp | hp | hp <;>
    · obtain ⟨hg, hc⟩ := (mem_neighRow_iff _ _ _ _ _ _).mp hp
      rcases hc with hc | hc | hc <;>
      · obtain ⟨hcond, hpe⟩ := (mem_neighCand_toList _ _ _ _ _ _).mp hc
        rw [Prod.mk.injEq] at hpe
        obtain ⟨he1, he2⟩ := hpe
        refine ⟨by omega, by omega, ?_⟩
        simp only [Nat.dist]
        omega
  · rintro ⟨h1, h2, h3⟩
    simp only [Nat.dist] at h3
    have hx3 : p1 + 1 = x ∨ p1 = x ∨ p1 = x + 1 := by omega
    have hy3 : p2 + 1 = y ∨ p2 = y ∨ p2 = y + 1 := by omega
    have hnb : ¬(p1 = x ∧ p2 = y) := by omega
    rcases hx3 with hx3 | hx3 | hx3
    · refine Or.inl ((mem_neighRow_iff _ _ _ _ _ _).mpr ⟨by omega, ?_⟩)
      rcases hy3 with hy3 | hy3 | hy3
      · exact Or.inl ((mem_neighCand_toList _ _ _ _ _ _).mpr
          ⟨by omega, by rw [Prod.mk.injEq]; omega⟩)
      · exact Or.inr (Or.inl ((mem_neighCand_toList _ _ _ _ _ _).mpr
          ⟨by omega, by rw [Prod.mk.injEq]; omega⟩))
      · exact Or.inr (Or.inr ((mem_neighCand_toList _ _ _ _ _ _).mpr
          ⟨by omega, by rw [Prod.mk.injEq]; omega⟩))
    · refine Or.inr (Or.inl ((mem_neighRow_iff _ _ _ _ _ _).mpr ⟨by omega, ?_⟩))
      rcases hy3 with hy3 | hy3 | hy3
      · exact Or.inl ((mem_neighCand_toList _ _ _ _ _ _).mpr
          ⟨by omega, by rw [Prod.mk.injEq]; omega⟩)
      · exact Or.inr (Or.inl ((mem_neighCand_toList _ _ _ _ _ _).mpr
          ⟨by omega, by rw [Prod.mk.injEq]; omega⟩))
      · exact Or.inr (Or.inr ((mem_neighCand_toList _ _ _ _ _ _).mpr
          ⟨by omega, by rw [Prod.mk.injEq]; omega⟩))
    · refine Or.inr (Or.inr ((mem_neighRow_iff _ _ _ _ _ _).mpr ⟨by omega, ?_⟩))
      rcases hy3 with hy3 | hy3 | hy3
      · exact Or.inl ((mem_neighCand_toList _ _ _ _ _ _).mpr
          ⟨by omega, by rw [Prod.mk.injEq]; omega⟩)
      · exact Or.inr (Or.inl ((mem_neighCand_toList _ _ _ _ _ _).mpr
          ⟨by omega, by rw [Prod.mk.injEq]; omega⟩))
      · exact Or.inr (Or.inr ((mem_neighCand_toList _ _ _ _ _ _).mpr
          ⟨by omega, by rw [Prod.mk.injEq]; omega⟩))

theorem neighRow_out (width height x y : ℕ) (i : ℤ)
    (hg : (x:ℤ) + i < 0 ∨ (width:ℤ) ≤ (x:ℤ) + i) :
    neighRow width height (x, y) i = [] := by
  simp [neighRow, if_pos hg]

theorem neighCand_toList_length (height x y : ℕ) (i j : ℤ) :
    (neighCand height (x, y) i j).toList.length =
      if (y:ℤ) + j < 0 ∨ (height:ℤ) ≤ (y:ℤ) + j ∨ (i = 0 ∧ j = 0) then 0 else 1 := by
  by_cases hc : (y:ℤ) + j < 0 ∨ (height:ℤ) ≤ (y:ℤ) + j ∨ (i = 0 ∧ j = 0)
  · simp [neighCand, if_pos hc, hc]
  · simp [neighCand, if_neg hc, hc]

theorem neighRow_length_in (width height x y : ℕ) (i : ℤ)
    (hg : ¬((x:ℤ) + i < 0 ∨ (width:ℤ) ≤ (x:ℤ) + i)) (hy : y < height) :
    (neighRow width height (x, y) i).length =
      (if 1 ≤ y then 1 else 0) + (if i = 0 then 0 else 1)
        + (if y + 1 < height then 1 else 0) := by
  simp only [neighRow]
  rw [if_neg hg]
  simp only [List.length_append, neighCand_toList_length]
  norm_num
  split_ifs <;> omega

theorem neighboursList_length (width height x y : ℕ) (hx : x < width) (hy : y < height) :
    (neighboursList width height (x, y)).length =
      ((if 1 ≤ x then 1 else 0) + 1 + (if x + 1 < width then 1 else 0)) *
        ((if 1 ≤ y then 1 else 0) + 1 + (if y + 1 < height then 1 else 0)) - 1 := by
  have hmid : ¬((x:ℤ) + 0 < 0 ∨ (width:ℤ) ≤ (x:ℤ) + 0) := by omega
  have hrow0 := neighRow_length_in width height x y 0 hmid hy
  simp only [neighboursList, List.length_append]
  by_cases h1 : 1 ≤ x
  · have hin1 : ¬((x:ℤ) + -1 < 0 ∨ (width:ℤ) ≤ (x:ℤ) + -1) := by omega
    have hrow1 := neighRow_length_in width height x y (-1) hin1 hy
    by_cases h2 : x + 1 < width
    · have hin2 : ¬((x:ℤ) + 1 < 0 ∨ (width:ℤ) ≤ (x:ℤ) + 1) := by omega
      have hrow2 := neighRow_length_in width height x y 1 hin2 hy
      rw [hrow0, hrow1, hrow2]
      split_ifs <;> simp_all
    · have hout2 : (x:ℤ) + 1 < 0 ∨ (width:ℤ) ≤ (x:ℤ) + 1 := by omega
      rw [hrow0, hrow1, neighRow_out width height x y 1 hout2]
      split_ifs <;> simp_all
  · have hout1 : (x:ℤ) + -1 < 0 ∨ (width:ℤ) ≤ (x:ℤ) + -1 := by omega
    by_cases h2 : x + 1 < width
    · have hin2 : ¬((x:ℤ) + 1 < 0 ∨ (width:ℤ) ≤ (x:ℤ) + 1) := by omega
      have hrow2 := neighRow_length_in width height x y 1 hin2 hy
      rw [hrow0, hrow2, neighRow_out width height x y (-1) hout1]
      split_ifs <;> simp_all
    · have hout2 : (x:ℤ) + 1 < 0 ∨ (width:ℤ) ≤ (x:ℤ) + 1 := by omega
      rw [hrow0, neighRow_out width height x y (-1) hout1,
        neighRow_out width height x y 1 hout2]
      split_ifs <;> simp_all

/-- C5 fails as stated: on the (constructible) 1×3 grid the vertex `(0, 1)`
lies on the grid boundary (its `x` coordinate is `0`) and is not a corner
(its `y` coordinate is neither `0` nor `height - 1`), yet `get_neighbours`
returns 2 neighbors, not 5. -/
theorem neighbours_boundary_count_cex :
    ACOMap.new 1 3 (1/2) = some (ACOMap.mk ((ACOGraph.new 1 3).fill 1) (1/2))
    ∧ (ACOMap.mk ((ACOGraph.new 1 3).fill 1) (1/2)).get_neighbours (0, 1)
        = [(0, 0), (0, 2)]
    ∧ ((0:ℕ) = 0 ∨ (0:ℕ) = 1 - 1 ∨ (1:ℕ) = 0 ∨ (1:ℕ) = 3 - 1)
    ∧ ¬(((0:ℕ) = 0 ∨ (0:ℕ) = 1 - 1) ∧ ((1:ℕ) = 0 ∨ (1:ℕ) = 3 - 1))
    ∧ ([(0, 0), (0, 2)] : List VerticeLoc).length ≠ 5 := by
  refine ⟨?_, by decide, by decide, by decide, by decide⟩
  rw [ACOMap.new, if_neg (by norm_num)]

/-- C5 amended: for every in-bounds vertex the neighbourhood function returns
exactly the in-grid cells at Chebyshev distance 1, and the 8/5/3 neighbor
counts for interior, non-corner-boundary, and corner vertices hold provided
both grid dimensions are at least 2 (the counts fail on width-1 or height-1
grids, where every vertex is extremal in the degenerate dimension). -/
theorem get_neighbours_spec (m : ACOMap) (x y : ℕ)
    (hx : x < m.pheromone_graph.width) (hy : y < m.pheromone_graph.height) :
    (∀ p : ℕ × ℕ, p ∈ m.get_neighbours (x, y) ↔
        (p.1 < m.pheromone_graph.width ∧ p.2 < m.pheromone_graph.height ∧
          max (Nat.dist p.1 x) (Nat.dist p.2 y) = 1))
    ∧ ((x ≠ 0 ∧ x ≠ m.pheromone_graph.width - 1 ∧ y ≠ 0 ∧
          y ≠ m.pheromone_graph.height - 1) →
        (m.get_neighbours (x, y)).length = 8)
    ∧ (2 ≤ m.pheromone_graph.width → 2 ≤ m.pheromone_graph.height →
        ((x = 0 ∨ x = m.pheromone_graph.width - 1 ∨ y = 0 ∨
            y = m.pheromone_graph.height - 1) ∧
          ¬((x = 0 ∨ x = m.pheromone_graph.width - 1) ∧
            (y = 0 ∨ y = m.pheromone_graph.height - 1))) →
        (m.get_neighbours (x, y)).length = 5)
    ∧ (2 ≤ m.pheromone_graph.width → 2 ≤ m.pheromone_graph.height →
        ((x = 0 ∨ x = m.pheromone_graph.width - 1) ∧
          (y = 0 ∨ y = m.pheromone_graph.height - 1)) →
        (m.get_neighbours (x, y)).length = 3) := by
  refine ⟨fun p => mem_neighboursList_iff _ _ x y p, ?_, ?_, ?_⟩
  · rintro ⟨h1, h2, h3, h4⟩
    show (neighboursList _ _ (x, y)).length = 8
    rw [neighboursList_length _ _ x y hx hy]
    split_ifs <;> omega
  · rintro hw2 hh2 ⟨hb, hnc⟩
    show (neighboursList _ _ (x, y)).length = 5
    rw [neighboursList_length _ _ x y hx hy]
    split_ifs <;> omega
  · rintro hw2 hh2 ⟨hbx, hby⟩
    show (neighboursList _ _ (x, y)).length = 3
    rw [neighboursList_length _ _ x y hx hy]
    split_ifs <;> omega

/-- Witness for C5's amended theorem: the center of the 3×3 map has exactly
8 neighbors. -/
theorem get_neighbours_spec_witness :
    ((ACOMap.mk ((ACOGraph.new 3 3).fill 1) (1/2)).get_neighbours (1, 1)).length = 8 :=
  (get_neighbours_spec (ACOMap.mk ((ACOGraph.new 3 3).fill 1) (1/2)) 1 1
    (by decide) (by decide)).2.1 ⟨by decide, by decide, by decide, by decide⟩

/-! ## Next-vertex selection -/

theorem mem_get_neighbours_with_exclusions (m : ACOMap) (vertice : VerticeLoc)
    (exclusions : List VerticeLoc) (p : VerticeLoc) :
    p ∈ m.get_neighbours_with_exclusions vertice exclusions ↔
      (p ∈ m.get_neighbours vertice ∧ p ∉ exclusions) := by
  simp [ACOMap.get_neighbours_with_exclusions, ACOMap.get_neighbours, List.mem_filter]

/-- C3: any vertex returned by the next-vertex selection with exclusions is an
in-grid neighbor of the current vertex at Chebyshev distance 1 and is not a
member of the supplied exclusion list; in particular, when the caller passes
`path ++ exclusions` as the exclusion list, the selected vertex is neither in
`path` nor in `exclusions`. -/
theorem next_vertice_with_exclusions_sound (m : ACOMap) (current v : VerticeLoc)
    (excl : List VerticeLoc) (r : ℚ)
    (h : m.get_next_vertice_with_exclusions current excl r = some v) :
    (v ∈ m.get_neighbours current
      ∧ v.1 < m.pheromone_graph.width ∧ v.2 < m.pheromone_graph.height
      ∧ max (Nat.dist v.1 current.1) (Nat.dist v.2 current.2) = 1
      ∧ v ∉ excl)
    ∧ (∀ path exclusions : List VerticeLoc, excl = path ++ exclusions →
        v ∉ path ∧ v ∉ exclusions) := by
  simp only [ACOMap.get_next_vertice_with_exclusions] at h
  by_cases hlen :
      ((m.get_neighbours_with_exclusions current excl).map
        (fun neighbour => (m.get_likelyhood_factor current neighbour, neighbour))).length = 0
  · rw [if_pos hlen] at h
    exact absurd h (by simp)
  · rw [if_neg hlen] at h
    have hv : v ∈ m.get_neighbours_with_exclusions current excl := by
      have hmem := rouletteAt_mem _ r v h
      simpa [List.map_map, Function.comp] using hmem
    have hmain := (mem_get_neighbours_with_exclusions m current excl v).mp hv
    obtain ⟨hn, hne⟩ := hmain
    obtain ⟨cx, cy⟩ := current
    have hch := (mem_neighboursList_iff m.pheromone_graph.width
      m.pheromone_graph.height cx cy v).mp hn
    refine ⟨⟨hn, hch.1, hch.2.1, hch.2.2, hne⟩, ?_⟩
    rintro path exclusions rfl
    constructor
    · exact fun hp => hne (List.mem_append.mpr (Or.inl hp))
    · exact fun hp => hne (List.mem_append.mpr (Or.inr hp))

/-- Witness for C3 on the 1×2 map: from `(0,0)` with no exclusions and draw
`0`, the selection is `(0,1)`, which is a neighbor and not excluded. -/
theorem next_vertice_with_exclusions_sound_witness :
    ((0, 1) : VerticeLoc) ∈
        (ACOMap.mk ((ACOGraph.new 1 2).fill 1) (1/2)).get_neighbours (0, 0)
      ∧ ((0, 1) : VerticeLoc) ∉ ([] : List VerticeLoc) := by
  have hbase : (ACOMap.mk ((ACOGraph.new 1 2).fill 1) (1/2)).get_neighbours_with_exclusions
      (0, 0) [] = [(0, 1)] := by decide
  have hsel : (ACOMap.mk ((ACOGraph.new 1 2).fill 1) (1/2)).get_next_vertice_with_exclusions
      (0, 0) [] 0 = some (0, 1) := by
    simp only [ACOMap.get_next_vertice_with_exclusions, hbase]
    norm_num [ACOMap.get_likelyhood_factor, ACOGraph.get_edg_value, ACOGraph.idx,
      ACOGraph.fill, ACOGraph.new, ACOMap.cost, SQRT_OF_2, totalWeight,
      VerticeProbabilities.roulette, sortPairs, List.insertionSort,
      List.orderedInsert, cumsum, pick]
  have hs := next_vertice_with_exclusions_sound
    (ACOMap.mk ((ACOGraph.new 1 2).fill 1) (1/2)) (0, 0) (0, 1) [] 0 hsel
  exact ⟨hs.1.1, hs.1.2.2.2.2⟩

/-- C6: an empty candidate collection yields the no-selection signal: both
roulette implementations return `none` on an empty collection, and the
next-vertex selection returns `none` whenever the filtered neighbor list of
the current vertex is empty. -/
theorem roulette_empty_no_selection (α : Type) (r : ℚ) (m : ACOMap)
    (current : VerticeLoc) (excl : List VerticeLoc)
    (hemp : m.get_neighbours_with_exclusions current excl = []) :
    (RouletteSubjects.roulette ([] : RouletteSubjects α) r).1 = none
    ∧ ((VerticeProbabilities.mk []).roulette r).1 = none
    ∧ m.get_next_vertice_with_exclusions current excl r = none := by
  refine ⟨rfl, rfl, ?_⟩
  simp [ACOMap.get_next_vertice_with_exclusions, hemp]

/-- Witness for C6 on the 1×1 map, whose single vertex has no neighbors. -/
theorem roulette_empty_no_selection_witness :
    (ACOMap.mk ((ACOGraph.new 1 1).fill 1) (1/2)).get_next_vertice_with_exclusions
        (0, 0) [] 0 = none
    ∧ (RouletteSubjects.roulette ([] : RouletteSubjects ℕ) 0).1 = none := by
  have hs := roulette_empty_no_selection ℕ 0
    (ACOMap.mk ((ACOGraph.new 1 1).fill 1) (1/2)) (0, 0) [] (by decide)
  exact ⟨hs.2.2, hs.1⟩

/-- C7: for adjacent vertices (Chebyshev distance 1) the traversal cost is
`1.0` for an orthogonal move (exactly one coordinate differs) and the
source's `SQRT_OF_2` constant for a diagonal move (both coordinates differ);
the cost function is symmetric, and `SQRT_OF_2` is the claim's `sqrt(2)`:
its square differs from `2` by less than `10⁻¹⁰`. -/
theorem cost_orthogonal_diagonal (a b : VerticeLoc)
    (hadj : max (Nat.dist a.1 b.1) (Nat.dist a.2 b.2) = 1) :
    (((a.1 = b.1 ∧ a.2 ≠ b.2) ∨ (a.1 ≠ b.1 ∧ a.2 = b.2)) → ACOMap.cost a b = 1)
    ∧ ((a.1 ≠ b.1 ∧ a.2 ≠ b.2) → ACOMap.cost a b = SQRT_OF_2)
    ∧ ACOMap.cost a b = ACOMap.cost b a
    ∧ |SQRT_OF_2 ^ 2 - 2| < 1 / 10 ^ 10 := by
  refine ⟨?_, ?_, ?_, ?_⟩
  · rintro (⟨h1, h2⟩ | ⟨h1, h2⟩) <;> simp [ACOMap.cost, h1, h2]
  · rintro ⟨h1, h2⟩
    simp [ACOMap.cost, h1, h2]
  · have hsym : (a.1 ≠ b.1 ∧ a.2 ≠ b.2) ↔ (b.1 ≠ a.1 ∧ b.2 ≠ a.2) := by
      constructor <;> rintro ⟨u, w⟩ <;> exact ⟨Ne.symm u, Ne.symm w⟩
    simp only [ACOMap.cost]
    rw [if_congr hsym rfl rfl]
  · rw [abs_lt]
    constructor <;> norm_num [SQRT_OF_2]

/-- Witness for C7 at the diagonal pair `(0,0)`, `(1,1)`. -/
theorem cost_orthogonal_diagonal_witness :
    ACOMap.cost (0, 0) (1, 1) = SQRT_OF_2
    ∧ ACOMap.cost (0, 0) (1, 1) = ACOMap.cost (1, 1) (0, 0) := by
  have hs := cost_orthogonal_diagonal (0, 0) (1, 1) (by decide)
  exact ⟨hs.2.1 ⟨by decide, by decide⟩, hs.2.2.1⟩

/-- C9 fails as stated: with window size `(2, 2)` and the (constructible)
1×2 grid, the two distinct in-bounds vertices `(0,0)` and `(0,1)` map to the
same pixel coordinates, because `y_spacing = (2 - 2/1) / (2 - 1) = 0`
collapses the rows. -/
theorem vertice_coordinates_not_injective :
    ACOMap.new 1 2 (1/2) = some (ACOMap.mk ((ACOGraph.new 1 2).fill 1) (1/2))
    ∧ (ACOMap.mk ((ACOGraph.new 1 2).fill 1) (1/2)).get_vertice_coordinates (2, 2) (0, 0)
        = (ACOMap.mk ((ACOGraph.new 1 2).fill 1) (1/2)).get_vertice_coordinates (2, 2) (0, 1)
    ∧ ((0, 0) : VerticeLoc) ≠ (0, 1) := by
  refine ⟨by rw [ACOMap.new, if_neg (by norm_num)], ?_, by decide⟩
  norm_num [ACOMap.get_vertice_coordinates, ACOGraph.fill, ACOGraph.new]

/-- C9 amended: the vertex-to-screen map is injective on in-bounds vertices
whenever the horizontal spacing `window_w / width` is nonzero and, when the
grid has more than one row, the vertical spacing numerator
`window_h - window_w / width` is nonzero; the original claim quantifies over
all window sizes and grids, including degenerate ones where a spacing is
zero and rows or columns collapse. -/
theorem vertice_coordinates_injective (m : ACOMap) (ws : ℕ × ℕ) (v1 v2 : VerticeLoc)
    (hxsp : ((ws.1 : ℚ) / (m.pheromone_graph.width : ℚ)) ≠ 0)
    (hysp : 1 < m.pheromone_graph.height →
      ((ws.2 : ℚ) - (ws.1 : ℚ) / (m.pheromone_graph.width : ℚ)) ≠ 0)
    (hv1 : v1.2 < m.pheromone_graph.height) (hv2 : v2.2 < m.pheromone_graph.height)
    (heq : m.get_vertice_coordinates ws v1 = m.get_vertice_coordinates ws v2) :
    v1 = v2 := by
  simp only [ACOMap.get_vertice_coordinates, Prod.mk.injEq] at heq
  obtain ⟨hex, hey⟩ := heq
  have hx12 : v1.1 = v2.1 := by
    have h1 : (v1.1 : ℚ) = (v2.1 : ℚ) :=
      mul_right_cancel₀ hxsp (by linarith)
    exact_mod_cast h1
  have hy12 : v1.2 = v2.2 := by
    rcases Nat.lt_or_ge m.pheromone_graph.height 2 with hh | hh
    · omega
    · have hden : ((m.pheromone_graph.height - 1 : ℕ) : ℚ) ≠ 0 :=
        Nat.cast_ne_zero.mpr (by omega)
      have hyne : ((ws.2 : ℚ) - (ws.1 : ℚ) / (m.pheromone_graph.width : ℚ)) /
          ((m.pheromone_graph.height - 1 : ℕ) : ℚ) ≠ 0 :=
        div_ne_zero (hysp (by omega)) hden
      have h1 : (v1.2 : ℚ) = (v2.2 : ℚ) :=
        mul_right_cancel₀ hyne (by linarith)
      exact_mod_cast h1
  exact Prod.ext hx12 hy12

/-- Witness for C9's amended theorem on the 2×2 map with window `(4, 4)`,
where both spacings are nonzero. -/
theorem vertice_coordinates_injective_witness : ((0, 1) : VerticeLoc) = (0, 1) :=
  vertice_coordinates_injective (ACOMap.mk ((ACOGraph.new 2 2).fill 1) (1/2))
    (4, 4) (0, 1) (0, 1) (by norm_num [ACOGraph.fill, ACOGraph.new])
    (fun _ => by norm_num [ACOGraph.fill, ACOGraph.new]) (by decide) (by decide) rfl

/-- C4 (Walk Controller, modelled from the spec — absent from the source):
the exclusion set is a bounded FIFO of capacity 150.  Insertion below
capacity appends; insertion at capacity first evicts the oldest entry (the
head) and keeps the size at exactly 150; consequently the 150-entry bound is
preserved by every step of the walk controller. -/
theorem exclusions_bounded_fifo (m : ACOMap) (s : WalkState) (r : ℚ)
    (hs : s.exclusions.length ≤ EXCLUSION_CAPACITY) :
    (walkStep m s r).exclusions.length ≤ EXCLUSION_CAPACITY
    ∧ (∀ (e : List VerticeLoc) (v : VerticeLoc), e.length < EXCLUSION_CAPACITY →
        insertExclusion e v = e ++ [v])
    ∧ (∀ (e : List VerticeLoc) (v : VerticeLoc), e.length = EXCLUSION_CAPACITY →
        insertExclusion e v = e.tail ++ [v]
          ∧ (insertExclusion e v).length = EXCLUSION_CAPACITY) := by
  have hins : ∀ (e : List VerticeLoc) (v : VerticeLoc),
      e.length ≤ EXCLUSION_CAPACITY → (insertExclusion e v).length ≤ EXCLUSION_CAPACITY := by
    intro e v he
    rw [insertExclusion]
    by_cases hc : e.length < EXCLUSION_CAPACITY
    · rw [if_pos hc]
      simp only [List.length_append, List.length_singleton]
      omega
    · rw [if_neg hc]
      simp only [List.length_append, List.length_singleton, List.length_tail]
      simp only [EXCLUSION_CAPACITY] at *
      omega
  refine ⟨?_, ?_, ?_⟩
  · rw [walkStep]
    cases m.get_next_vertice_with_exclusions s.current (s.path ++ s.exclusions) r with
    | some v => exact hs
    | none =>
      cases s.path with
      | nil => exact hs
      | cons p rest => exact hins s.exclusions s.current hs
  · intro e v he
    rw [insertExclusion, if_pos he]
  · intro e v he
    have hnlt : ¬ e.length < EXCLUSION_CAPACITY := by omega
    refine ⟨by rw [insertExclusion, if_neg hnlt], ?_⟩
    rw [insertExclusion, if_neg hnlt]
    simp only [List.length_append, List.length_singleton, List.length_tail]
    simp only [EXCLUSION_CAPACITY] at *
    omega

/-- Witness for C4: a backtracking step on the 1×1 map (no neighbors, so the
current vertex is inserted into the empty exclusion set) keeps the bound. -/
theorem exclusions_bounded_fifo_witness :
    (walkStep (ACOMap.mk ((ACOGraph.new 1 1).fill 1) (1/2))
        (WalkState.mk (0, 0) [(0, 0)] []) 0).exclusions.length ≤ EXCLUSION_CAPACITY :=
  (exclusions_bounded_fifo (ACOMap.mk ((ACOGraph.new 1 1).fill 1) (1/2))
    (WalkState.mk (0, 0) [(0, 0)] []) 0 (by decide)).1

/-- Witness for C8's amended theorem on the concrete 2×2 map, at the
diagonal entry `(0, 0)`. -/
theorem pheromone_init_uniform_one_witness :
    (ACOMap.mk ((ACOGraph.new 2 2).fill 1) (1/2)).pheromone_graph.mat 0 0 = 1 :=
  pheromone_init_uniform_one 2 2 (1/2) _
    (by rw [ACOMap.new, if_neg (by norm_num)]) 0 0
